import Mathlib

/-!
Verification development for the trw text-rewriting engine (trw.go).

Bytes are modelled as natural numbers (the engine only moves and compares
bytes, never computes with them).  A Go slice is modelled as a `Buf`: the
storage identity (`id`, a ghost tag distinguishing distinct allocations),
the logical contents (`data`) and the allocated capacity (`cap`).  Go's
`copy` builtin is modelled by `goWrite` (memmove semantics: the source run
is read out before any byte is written).  Every Rewriter is a function
from a (dest, src) pair of buffers to a (result, spare) pair together
with a count of the fresh allocations it performed.
-/

/-- A byte buffer: ghost storage identity, contents, capacity. -/
structure Buf where
  id : Nat
  data : List Nat
  cap : Nat
deriving DecidableEq, Repr

/-- A Matcher maps a byte sequence to the index pairs of successive matches
(trw.go line 76: `type Matcher = func([]byte) [][]int`). -/
abbrev Matcher := List Nat → List (Nat × Nat)

/-- Model of Go `copy(s[i:], v)` inside one buffer: writes `v` at offset `i`,
truncated at the end of `s`; the length of `s` is preserved.  The source
bytes `v` are taken before writing, matching Go's memmove semantics. -/
def goWrite (s : List Nat) (i : Nat) (v : List Nat) : List Nat :=
  s.take i ++ v.take (s.length - i) ++ s.drop (i + v.length)

/-- Number of bytes Go `copy(s[i:], v)` reports as copied. -/
def goCopyLen (s : List Nat) (i : Nat) (v : List Nat) : Nat :=
  min (s.length - i) v.length

/-- One iteration of Delete's compaction loop (trw.go lines 90-93):
state is (buffer, write position i, read position j). -/
def deleteStep (st : List Nat × Nat × Nat) (m : Nat × Nat) : List Nat × Nat × Nat :=
  let s := st.1
  let i := st.2.1
  let j := st.2.2
  let v := (s.drop j).take (m.1 - j)
  (goWrite s i v, i + goCopyLen s i v, m.2)

/-- The in-place body of Delete (trw.go lines 88-99): compacts `src` over
the match list `ms` and truncates to the compacted length. -/
def deleteRun (ms : List (Nat × Nat)) (src : List Nat) : List Nat :=
  match ms with
  | [] => src
  | m :: rest =>
    let st := rest.foldl deleteStep (src, m.1, m.2)
    let s := st.1
    let i := st.2.1
    let j := st.2.2
    if j < s.length then
      let v := s.drop j
      (goWrite s i v).take (i + goCopyLen s i v)
    else
      s.take i

/-- The match-scanning loop of Replace (trw.go lines 114-122): total span
length and the overlap flag, in one pass. -/
def scanMs (slen : Nat) (ms : List (Nat × Nat)) : Nat × Bool :=
  ms.foldl (fun st m => (st.1 + (m.2 - m.1), st.2 || decide (m.2 - m.1 < slen))) (0, false)

/-- The copy-with-replacement loop of Replace's reallocating path
(trw.go lines 136-143): appends each gap and the substitution, then the tail. -/
def spliceRun (ms : List (Nat × Nat)) (subst src : List Nat) : List Nat :=
  let st := ms.foldl
    (fun (st : List Nat × Nat) m =>
      (st.1 ++ (src.drop st.2).take (m.1 - st.2) ++ subst, m.2)) ([], 0)
  st.1 ++ src.drop st.2

/-- One iteration of Replace's in-place loop (trw.go lines 151-155):
copy the gap, then write the substitution. -/
def replStep (subst : List Nat) (st : List Nat × Nat × Nat) (m : Nat × Nat) :
    List Nat × Nat × Nat :=
  let s := st.1
  let i := st.2.1
  let j := st.2.2
  let v := (s.drop j).take (m.1 - j)
  let s1 := goWrite s i v
  let i1 := i + goCopyLen s i v
  (goWrite s1 i1 subst, i1 + goCopyLen s1 i1 subst, m.2)

/-- The in-place body of Replace (trw.go lines 146-161). -/
def replaceInPlace (ms : List (Nat × Nat)) (subst src : List Nat) : List Nat :=
  match ms with
  | [] => src
  | m :: rest =>
    let s1 := goWrite src m.1 subst
    let i1 := m.1 + goCopyLen src m.1 subst
    let st := rest.foldl (replStep subst) (s1, i1, m.2)
    let s := st.1
    let i := st.2.1
    let j := st.2.2
    if j < s.length then
      let v := s.drop j
      (goWrite s i v).take (i + goCopyLen s i v)
    else
      s.take i

/-- Ghost identity for a freshly allocated buffer: distinct from both
buffers in scope. -/
def freshId (dest src : Buf) : Nat := max dest.id src.id + 1

/-- A Rewriter function: (dest, src) to (result, spare, allocation count).
This is trw.go's `type Rewriter func([]byte, []byte) ([]byte, []byte)`
instrumented with the number of fresh buffer allocations. -/
abbrev RWfun := Buf → Buf → Buf × Buf × Nat

/-- The Rewriter produced by Delete (trw.go lines 79-101). -/
def deleteRW (mf : Matcher) : RWfun := fun dest src =>
  let ms := mf src.data
  if ms.length = 0 then (src, dest, 0)
  else ({ src with data := deleteRun ms src.data }, dest, 0)

/-- The Rewriter produced by Replace with a non-empty substitution
(trw.go lines 110-162). -/
def replaceRW (mf : Matcher) (subst : List Nat) : RWfun := fun dest src =>
  let ms := mf src.data
  let sc := scanMs subst.length ms
  if sc.1 = 0 then (src, dest, 0)
  else if sc.2 then
    let size := src.data.length - sc.1 + ms.length * subst.length
    if size > dest.cap then
      ((⟨freshId dest src, spliceRun ms subst src.data, size + size / 5⟩ : Buf), src, 1)
    else
      ({ dest with data := dest.data ++ spliceRun ms subst src.data }, src, 0)
  else
    ({ src with data := replaceInPlace ms subst src.data }, dest, 0)

/-- Model of delivering accumulated output through Go append: when the
output has outgrown the destination's capacity, append has reallocated to
a fresh backing buffer (at least one growth allocation happened during the
stage; how many, and the final capacity, depend on the Go runtime's growth
policy, modelled here as one allocation of exactly the output length).
Otherwise the output sits in the destination's original storage. -/
def appendGrow (b src : Buf) (out : List Nat) : Buf × Nat :=
  if out.length > b.cap then ((⟨freshId b src, out, out.length⟩ : Buf), 1)
  else ({ b with data := out }, 0)

/-- The Rewriter produced by ExpandReN with a non-empty template
(trw.go lines 198-219).  The external regex engine is abstracted by the
matcher `mf` (FindAllSubmatchIndex restricted to whole-match spans) and
by `exp`, which yields the bytes Regexp.Expand appends for one match.
The destination is speculatively sized to len(src) + len(src)/5 only; the
expanded output is unbounded, so the appends may outgrow it, in which case
Go's append reallocates — modelled by `appendGrow`. -/
def expandRW (mf : Matcher) (exp : List Nat → Nat × Nat → List Nat) : RWfun :=
  fun dest src =>
    let ms := mf src.data
    if ms.length = 0 then (src, dest, 0)
    else
      let dk : Buf × Nat :=
        if src.data.length > dest.cap then
          (⟨freshId dest src, [], src.data.length + src.data.length / 5⟩, 1)
        else (dest, 0)
      let st := ms.foldl
        (fun (st : List Nat × Nat) m =>
          (st.1 ++ (src.data.drop st.2).take (m.1 - st.2) ++ exp src.data m, m.2))
        (dk.1.data, 0)
      let g := appendGrow dk.1 src (st.1 ++ src.data.drop st.2)
      (g.1, src, dk.2 + g.2)

/-- The composition loop of Seq (trw.go lines 61-69): swap the roles of
dest and src, then thread the (current, spare) pair through the stages,
handing each stage the spare with its logical length reset to zero. -/
def seqRun (fns : List RWfun) (dest src : Buf) : Buf × Buf × Nat :=
  fns.foldl
    (fun (st : Buf × Buf × Nat) fn =>
      let r := fn { st.2.1 with data := [] } st.1
      (r.1, r.2.1, st.2.2 + r.2.2))
    (src, dest, 0)

/-- Rewriters as built by the library: Delete, Replace, Expand and
binary sequential composition. -/
inductive RW where
  | del (mf : Matcher)
  | repl (mf : Matcher) (subst : List Nat)
  | expa (mf : Matcher) (exp : List Nat → Nat × Nat → List Nat)
  | seq (a b : RW)

/-- Denotation of a built Rewriter.  Replace with an empty substitution
is Delete (trw.go lines 106-108); Seq of two rewriters runs the
composition loop (trw.go lines 61-69). -/
def RW.den : RW → RWfun
  | .del mf => deleteRW mf
  | .repl mf subst =>
      if subst.length = 0 then deleteRW mf else replaceRW mf subst
  | .expa mf exp => expandRW mf exp
  | .seq a b => fun dest src => seqRun [a.den, b.den] dest src

/-- Rewriter.Do (trw.go lines 48-51): apply with a nil destination and
keep the result. -/
def RW.do (r : RW) (src : Buf) : Buf := (r.den ⟨0, [], 0⟩ src).1

/-- The matcher of every stage finds no match on this byte sequence. -/
def RW.noMatch : RW → List Nat → Bool
  | .del mf, s => (mf s).length = 0
  | .repl mf _, s => (mf s).length = 0
  | .expa mf _, s => (mf s).length = 0
  | .seq a b, s => a.noMatch s && b.noMatch s

/-- Number of primitive stages of a built Rewriter. -/
def RW.stages : RW → Nat
  | .del _ => 1
  | .repl _ _ => 1
  | .expa _ _ => 1
  | .seq a b => a.stages + b.stages

/-- A built Rewriter whose every primitive stage is Delete or Replace.
Such stages allocate at most once: Delete never, Replace only through its
single explicit make (its appends stay within the computed final size).
Expand stages additionally reallocate through append growth. -/
def RW.noExpand : RW → Bool
  | .del _ => true
  | .repl _ _ => true
  | .expa _ _ => false
  | .seq a b => a.noExpand && b.noExpand

/-- Model of a byte-sequence test: does `s` begin with the run `p`. -/
def startsWith : List Nat → List Nat → Bool
  | _, [] => true
  | [], _ :: _ => false
  | a :: s, b :: p => decide (a = b) && startsWith s p

/-- Model of Go bytes.Index: offset of the first occurrence of `patt`
in `s`, or none. -/
def bytesIndex (s patt : List Nat) : Option Nat :=
  if startsWith s patt then some 0
  else
    match s with
    | [] => none
    | _ :: t => (bytesIndex t patt).map (fun k => k + 1)

/-- The scan loop of Lit (trw.go lines 229-233): repeatedly search for the
literal past the end of the previous match.  The fuel argument bounds the
iteration count; the loop advances the cursor by at least one byte per
iteration, so fuel `s.length + 1` is never exhausted. -/
def litAux (p0 : Nat) (pr : List Nat) (s : List Nat) : Nat → Nat → List (Nat × Nat)
  | 0, _ => []
  | fuel + 1, b =>
    match bytesIndex (s.drop b) (p0 :: pr) with
    | none => []
    | some i =>
      (b + i, b + i + (pr.length + 1)) :: litAux p0 pr s fuel (b + i + (pr.length + 1))

/-- The Matcher built by Lit (trw.go lines 223-237).  Lit panics on the
empty pattern, so the empty case is never built; it is mapped to the
matcher with no matches. -/
def litM (patt : List Nat) : Matcher :=
  match patt with
  | [] => fun _ => []
  | p0 :: pr => fun s => litAux p0 pr s (s.length + 1) 0

/-- The count-bounded scan loop of LitN (trw.go lines 249-261). -/
def litNAux (p0 : Nat) (pr : List Nat) (s : List Nat) : Nat → Nat → List (Nat × Nat)
  | 0, _ => []
  | n + 1, b =>
    match bytesIndex (s.drop b) (p0 :: pr) with
    | none => []
    | some i =>
      (b + i, b + i + (pr.length + 1)) :: litNAux p0 pr s n (b + i + (pr.length + 1))

/-- The Matcher built by LitN (trw.go lines 240-262): negative count means
unbounded, otherwise at most n leftmost matches. -/
def litNM (patt : List Nat) (n : Int) : Matcher :=
  if n < 0 then litM patt
  else
    match patt with
    | [] => fun _ => []
    | p0 :: pr => fun s => litNAux p0 pr s n.toNat 0

/-- Modelled from the spec: the external regular-expression collaborator's
count-limited FindAllIndex, which is not part of this repository.  Spec 4.1:
"CountLimit(inner, n): applies inner but stops scanning after the n-th
match (n < 0 means unbounded); n = 0 matches nothing." -/
def reFindAllIndex (all : List (Nat × Nat)) (n : Int) : List (Nat × Nat) :=
  if n < 0 then all else all.take n.toNat

/-- A base Matcher: a literal (Lit/LitN) or a regular-expression pattern
(Re/ReN), the latter abstracted by the engine's full match sequence. -/
inductive BaseM where
  | lit (patt : List Nat)
  | patt (all : List Nat → List (Nat × Nat))

/-- The unbounded Matcher of a base matcher (Lit, Re). -/
def BaseM.unbounded : BaseM → Matcher
  | .lit p => litM p
  | .patt a => fun s => reFindAllIndex (a s) (-1)

/-- The count-limited Matcher of a base matcher (LitN, ReN). -/
def BaseM.limited : BaseM → Int → Matcher
  | .lit p, n => litNM p n
  | .patt a, n => fun s => reFindAllIndex (a s) n

/-! ### Specification-side definitions (written from the spec, for
refinement comparison against the code-side definitions above). -/

/-- Well-formedness of a match sequence over a buffer of length `L`
starting at cursor `j` (spec section 3, MatchSequence): ordered,
non-overlapping, within bounds. -/
def chainB (L : Nat) : Nat → List (Nat × Nat) → Bool
  | _, [] => true
  | j, m :: rest =>
    decide (j ≤ m.1) && decide (m.1 ≤ m.2) && decide (m.2 ≤ L) && chainB L m.2 rest

/-- End position of the last match, starting from cursor `j`. -/
def lastEnd : Nat → List (Nat × Nat) → Nat
  | j, [] => j
  | _, m :: rest => lastEnd m.2 rest

/-- Total length of all match spans. -/
def spansTotal : List (Nat × Nat) → Nat
  | [] => 0
  | m :: rest => (m.2 - m.1) + spansTotal rest

/-- Specification of Delete: the buffer with each matched span removed and
the remaining bytes concatenated in their original order. -/
def removeSpec (b : List Nat) : Nat → List (Nat × Nat) → List Nat
  | j, [] => b.drop j
  | j, m :: rest => (b.drop j).take (m.1 - j) ++ removeSpec b m.2 rest

/-- Specification of Replace: each matched span replaced by the
substitution, gaps kept in their original order. -/
def spliceSpec (b subst : List Nat) : Nat → List (Nat × Nat) → List Nat
  | j, [] => b.drop j
  | j, m :: rest => (b.drop j).take (m.1 - j) ++ subst ++ spliceSpec b subst m.2 rest

/-- The gaps copied by Delete's loop (no trailing tail). -/
def gapAcc (b : List Nat) : Nat → List (Nat × Nat) → List Nat
  | _, [] => []
  | j, m :: rest => (b.drop j).take (m.1 - j) ++ gapAcc b m.2 rest

/-- The gaps and substitutions written by Replace's in-place loop
(no trailing tail). -/
def replAcc (b subst : List Nat) : Nat → List (Nat × Nat) → List Nat
  | _, [] => []
  | j, m :: rest => (b.drop j).take (m.1 - j) ++ subst ++ replAcc b subst m.2 rest

/-! ### Basic lemmas about the copy model -/

theorem goWrite_length (s v : List Nat) (i : Nat) : (goWrite s i v).length = s.length := by
  simp [goWrite]
  omega

theorem goWrite_take_add (s v : List Nat) (i : Nat) (h2 : i + v.length ≤ s.length) :
    (goWrite s i v).take (i + v.length) = s.take i ++ v := by
  have h1 : i ≤ s.length := by omega
  have hv : v.take (s.length - i) = v := List.take_of_length_le (by omega)
  have hlt : (s.take i).length = i := by rw [List.length_take]; omega
  rw [goWrite, hv, List.append_assoc, List.take_append_eq_append_take, hlt,
    List.take_of_length_le (by omega : (s.take i).length ≤ i + v.length),
    List.take_append_eq_append_take,
    List.take_of_length_le (by omega : v.length ≤ i + v.length - i)]
  have : i + v.length - i - v.length = 0 := by omega
  rw [this, List.take_zero, List.append_nil]

theorem goWrite_drop (s v : List Nat) (i k : Nat) (h : i + v.length ≤ k) :
    (goWrite s i v).drop k = s.drop k := by
  by_cases h1 : i ≤ s.length
  · by_cases h2 : i + v.length ≤ s.length
    · have hv : v.take (s.length - i) = v := List.take_of_length_le (by omega)
      have hlt : (s.take i).length = i := by rw [List.length_take]; omega
      rw [goWrite, hv, List.append_assoc, List.drop_append_eq_append_drop, hlt,
        List.drop_of_length_le (by omega : (s.take i).length ≤ k),
        List.drop_append_eq_append_drop,
        List.drop_of_length_le (by omega : v.length ≤ k - i),
        List.drop_drop]
      have : i + v.length + (k - i - v.length) = k := by omega
      rw [this, List.nil_append, List.nil_append]
    · have hk : (goWrite s i v).length ≤ k := by rw [goWrite_length]; omega
      rw [List.drop_of_length_le hk, List.drop_of_length_le (by omega : s.length ≤ k)]
  · have hz : s.length - i = 0 := by omega
    rw [goWrite, hz, List.take_zero,
      List.take_of_length_le (by omega : s.length ≤ i),
      List.drop_of_length_le (by omega : s.length ≤ i + v.length),
      List.append_nil, List.append_nil]

theorem drop_eq_trans {s b : List Nat} {j k : Nat} (h : s.drop j = b.drop j)
    (hjk : j ≤ k) : s.drop k = b.drop k := by
  have e : j + (k - j) = k := by omega
  calc s.drop k = (s.drop j).drop (k - j) := by rw [List.drop_drop, e]
    _ = (b.drop j).drop (k - j) := by rw [h]
    _ = b.drop k := by rw [List.drop_drop, e]

theorem chainB_cons {L j : Nat} {m : Nat × Nat} {rest : List (Nat × Nat)} :
    chainB L j (m :: rest) = true ↔
      j ≤ m.1 ∧ m.1 ≤ m.2 ∧ m.2 ≤ L ∧ chainB L m.2 rest = true := by
  simp [chainB, Bool.and_eq_true, decide_eq_true_eq, and_assoc]

theorem chainB_append {L : Nat} :
    ∀ (xs ys : List (Nat × Nat)) (j : Nat), chainB L j (xs ++ ys) = true →
      chainB L j xs = true ∧ chainB L (lastEnd j xs) ys = true := by
  intro xs
  induction xs with
  | nil => intro ys j h; exact ⟨rfl, h⟩
  | cons m rest ih =>
    intro ys j h
    rw [List.cons_append, chainB_cons] at h
    obtain ⟨h1, h2, h3, h4⟩ := h
    obtain ⟨h5, h6⟩ := ih ys m.2 h4
    refine ⟨?_, h6⟩
    rw [chainB_cons]
    exact ⟨h1, h2, h3, h5⟩

theorem lastEnd_le {L : Nat} :
    ∀ (ms : List (Nat × Nat)) (j : Nat), chainB L j ms = true → j ≤ L →
      j ≤ lastEnd j ms ∧ lastEnd j ms ≤ L := by
  intro ms
  induction ms with
  | nil => intro j _ hj; exact ⟨le_refl j, hj⟩
  | cons m rest ih =>
    intro j h hj
    rw [chainB_cons] at h
    obtain ⟨h1, h2, h3, h4⟩ := h
    obtain ⟨h5, h6⟩ := ih m.2 h4 h3
    exact ⟨le_trans h1 (le_trans h2 h5), h6⟩

/-! ### The Delete compaction loop invariant -/

theorem deleteFold_inv (b : List Nat) :
    ∀ (ms : List (Nat × Nat)) (s : List Nat) (i j : Nat),
      s.length = b.length → i ≤ j → j ≤ b.length →
      s.drop j = b.drop j →
      chainB b.length j ms = true →
      (ms.foldl deleteStep (s, i, j)).1.length = b.length ∧
      (ms.foldl deleteStep (s, i, j)).2.1 = i + (gapAcc b j ms).length ∧
      (ms.foldl deleteStep (s, i, j)).2.2 = lastEnd j ms ∧
      (ms.foldl deleteStep (s, i, j)).2.1 ≤ lastEnd j ms ∧
      (ms.foldl deleteStep (s, i, j)).1.drop (lastEnd j ms) = b.drop (lastEnd j ms) ∧
      (ms.foldl deleteStep (s, i, j)).1.take ((ms.foldl deleteStep (s, i, j)).2.1)
        = s.take i ++ gapAcc b j ms := by
  intro ms
  induction ms with
  | nil =>
    intro s i j hslen hij hjL hdrop _
    simp only [List.foldl_nil, gapAcc, lastEnd, List.length_nil, Nat.add_zero,
      List.append_nil]
    exact ⟨hslen, trivial, trivial, hij, hdrop, trivial⟩
  | cons m rest ih =>
    intro s i j hslen hij hjL hdrop hch
    rw [chainB_cons] at hch
    obtain ⟨hjm, hmm, hmL, hch'⟩ := hch
    rw [List.foldl_cons]
    -- compute the step
    have hv : (s.drop j).take (m.1 - j) = (b.drop j).take (m.1 - j) := by rw [hdrop]
    have hvlen : ((s.drop j).take (m.1 - j)).length = m.1 - j := by
      rw [List.length_take, List.length_drop, hslen]; omega
    have hcopy : goCopyLen s i ((s.drop j).take (m.1 - j)) = m.1 - j := by
      rw [goCopyLen, hvlen, hslen]; omega
    have hstep : deleteStep (s, i, j) m =
        (goWrite s i ((s.drop j).take (m.1 - j)), i + (m.1 - j), m.2) := by
      rw [deleteStep, hcopy]
    rw [hstep]
    -- facts about the written buffer
    have hs1len : (goWrite s i ((s.drop j).take (m.1 - j))).length = b.length := by
      rw [goWrite_length, hslen]
    have hi1 : i + (m.1 - j) ≤ m.2 := by omega
    have hs1drop : (goWrite s i ((s.drop j).take (m.1 - j))).drop m.2 = b.drop m.2 := by
      rw [goWrite_drop _ _ _ _ (by rw [hvlen]; omega)]
      exact drop_eq_trans hdrop (by omega)
    have hs1take : (goWrite s i ((s.drop j).take (m.1 - j))).take (i + (m.1 - j))
        = s.take i ++ (b.drop j).take (m.1 - j) := by
      have := goWrite_take_add s ((s.drop j).take (m.1 - j)) i
        (by rw [hvlen, hslen]; omega)
      rw [hvlen] at this
      rw [this, hv]
    obtain ⟨c1, c2, c3, c4, c5, c6⟩ := ih (goWrite s i ((s.drop j).take (m.1 - j)))
      (i + (m.1 - j)) m.2 hs1len hi1 hmL hs1drop hch'
    have hgap : gapAcc b j (m :: rest)
        = (b.drop j).take (m.1 - j) ++ gapAcc b m.2 rest := rfl
    have hgaplen : ((b.drop j).take (m.1 - j)).length = m.1 - j := by
      rw [List.length_take, List.length_drop]; omega
    have hlast : lastEnd j (m :: rest) = lastEnd m.2 rest := rfl
    refine ⟨c1, ?_, by rw [hlast]; exact c3, by rw [hlast]; exact c4,
      by rw [hlast]; exact c5, ?_⟩
    · rw [c2, hgap, List.length_append, hgaplen]; omega
    · rw [c6, hs1take, hgap, List.append_assoc]

theorem removeSpec_eq_gapAcc (b : List Nat) :
    ∀ (ms : List (Nat × Nat)) (j : Nat),
      removeSpec b j ms = gapAcc b j ms ++ b.drop (lastEnd j ms) := by
  intro ms
  induction ms with
  | nil => intro j; simp [removeSpec, gapAcc, lastEnd]
  | cons m rest ih =>
    intro j
    rw [removeSpec, gapAcc, ih m.2, List.append_assoc]
    rfl

theorem spansTotal_le_lastEnd {L : Nat} :
    ∀ (ms : List (Nat × Nat)) (j : Nat), chainB L j ms = true →
      j + spansTotal ms ≤ lastEnd j ms := by
  intro ms
  induction ms with
  | nil => intro j _; simp [spansTotal, lastEnd]
  | cons m rest ih =>
    intro j h
    rw [chainB_cons] at h
    obtain ⟨h1, h2, h3, h4⟩ := h
    have := ih m.2 h4
    rw [spansTotal, lastEnd]
    omega

theorem removeSpec_length (b : List Nat) :
    ∀ (ms : List (Nat × Nat)) (j : Nat), chainB b.length j ms = true → j ≤ b.length →
      (removeSpec b j ms).length = b.length - j - spansTotal ms := by
  intro ms
  induction ms with
  | nil => intro j _ hj; simp [removeSpec, spansTotal]
  | cons m rest ih =>
    intro j h hj
    rw [chainB_cons] at h
    obtain ⟨h1, h2, h3, h4⟩ := h
    have hrest := ih m.2 h4 h3
    have hbound := spansTotal_le_lastEnd rest m.2 h4
    have hle := (lastEnd_le rest m.2 h4 h3).2
    rw [removeSpec, List.length_append, hrest, List.length_take, List.length_drop]
    rw [spansTotal]
    omega

/-- Correctness of the in-place compaction of Delete: for a well-formed
match sequence the compacted buffer is exactly the buffer with the matched
spans removed. -/
theorem deleteRun_eq (b : List Nat) (ms : List (Nat × Nat))
    (hch : chainB b.length 0 ms = true) :
    deleteRun ms b = removeSpec b 0 ms := by
  match ms with
  | [] => rw [deleteRun, removeSpec, List.drop_zero]
  | m :: rest =>
    rw [chainB_cons] at hch
    obtain ⟨h1, h2, h3, h4⟩ := hch
    obtain ⟨c1, c2, c3, c4, c5, c6⟩ :=
      deleteFold_inv b rest b m.1 m.2 rfl h2 h3 rfl h4
    have hle := (lastEnd_le rest m.2 h4 h3).2
    rw [deleteRun]
    rw [removeSpec, removeSpec_eq_gapAcc, List.drop_zero, Nat.sub_zero]
    set st := rest.foldl deleteStep (b, m.1, m.2) with hst
    by_cases hcase : st.2.2 < st.1.length
    · simp only [if_pos hcase]
      have hdropv : st.1.drop st.2.2 = b.drop st.2.2 := by rw [c3]; exact c5
      have hvlen : (st.1.drop st.2.2).length = b.length - st.2.2 := by
        rw [List.length_drop, c1]
      have hcopy : goCopyLen st.1 st.2.1 (st.1.drop st.2.2) = b.length - st.2.2 := by
        rw [goCopyLen, hvlen, c1]
        have : st.2.1 ≤ st.2.2 := by rw [c3]; exact c4
        omega
      have htk := goWrite_take_add st.1 (st.1.drop st.2.2) st.2.1
        (by rw [hvlen, c1, c3]; have := c4; omega)
      rw [hcopy]
      rw [hvlen] at htk
      rw [htk, c6, hdropv, c3, List.append_assoc]
    · simp only [if_neg hcase]
      have hjL : st.2.2 = b.length := by rw [c3]; rw [c3, c1] at hcase; omega
      have : b.drop (lastEnd m.2 rest) = [] := by
        rw [← c3, hjL, List.drop_length]
      rw [this, List.append_nil, c6]

/-! ### The Replace in-place loop invariant -/

theorem replFold_inv (b subst : List Nat) :
    ∀ (ms : List (Nat × Nat)) (s : List Nat) (i j : Nat),
      s.length = b.length → i ≤ j → j ≤ b.length →
      s.drop j = b.drop j →
      chainB b.length j ms = true →
      (∀ mm ∈ ms, subst.length ≤ mm.2 - mm.1) →
      (ms.foldl (replStep subst) (s, i, j)).1.length = b.length ∧
      (ms.foldl (replStep subst) (s, i, j)).2.1 = i + (replAcc b subst j ms).length ∧
      (ms.foldl (replStep subst) (s, i, j)).2.2 = lastEnd j ms ∧
      (ms.foldl (replStep subst) (s, i, j)).2.1 ≤ lastEnd j ms ∧
      (ms.foldl (replStep subst) (s, i, j)).1.drop (lastEnd j ms)
        = b.drop (lastEnd j ms) ∧
      (ms.foldl (replStep subst) (s, i, j)).1.take
          ((ms.foldl (replStep subst) (s, i, j)).2.1)
        = s.take i ++ replAcc b subst j ms := by
  intro ms
  induction ms with
  | nil =>
    intro s i j hslen hij hjL hdrop _ _
    simp only [List.foldl_nil, replAcc, lastEnd, List.length_nil, Nat.add_zero,
      List.append_nil]
    exact ⟨hslen, trivial, trivial, hij, hdrop, trivial⟩
  | cons m rest ih =>
    intro s i j hslen hij hjL hdrop hch hno
    rw [chainB_cons] at hch
    obtain ⟨hjm, hmm, hmL, hch'⟩ := hch
    have hnom : subst.length ≤ m.2 - m.1 := hno m (List.mem_cons_self m rest)
    have hno' : ∀ mm ∈ rest, subst.length ≤ mm.2 - mm.1 :=
      fun mm hm => hno mm (List.mem_cons_of_mem m hm)
    rw [List.foldl_cons]
    have hvlen : ((s.drop j).take (m.1 - j)).length = m.1 - j := by
      rw [List.length_take, List.length_drop, hslen]; omega
    have hcopy1 : goCopyLen s i ((s.drop j).take (m.1 - j)) = m.1 - j := by
      rw [goCopyLen, hvlen, hslen]; omega
    have hs1len : (goWrite s i ((s.drop j).take (m.1 - j))).length = b.length := by
      rw [goWrite_length, hslen]
    have hcopy2 : goCopyLen (goWrite s i ((s.drop j).take (m.1 - j)))
        (i + (m.1 - j)) subst = subst.length := by
      rw [goCopyLen, hs1len]; omega
    have hstep : replStep subst (s, i, j) m =
        (goWrite (goWrite s i ((s.drop j).take (m.1 - j))) (i + (m.1 - j)) subst,
          i + (m.1 - j) + subst.length, m.2) := by
      rw [replStep]
      rw [hcopy1, hcopy2]
    rw [hstep]
    -- facts about the twice-written buffer
    have hs2len : (goWrite (goWrite s i ((s.drop j).take (m.1 - j)))
        (i + (m.1 - j)) subst).length = b.length := by
      rw [goWrite_length, hs1len]
    have hi2 : i + (m.1 - j) + subst.length ≤ m.2 := by omega
    have hs2drop : (goWrite (goWrite s i ((s.drop j).take (m.1 - j)))
        (i + (m.1 - j)) subst).drop m.2 = b.drop m.2 := by
      rw [goWrite_drop _ _ _ _ (by omega)]
      rw [goWrite_drop _ _ _ _ (by rw [hvlen]; omega)]
      exact drop_eq_trans hdrop (by omega)
    have hs1take : (goWrite s i ((s.drop j).take (m.1 - j))).take (i + (m.1 - j))
        = s.take i ++ (b.drop j).take (m.1 - j) := by
      have := goWrite_take_add s ((s.drop j).take (m.1 - j)) i
        (by rw [hvlen, hslen]; omega)
      rw [hvlen] at this
      rw [this, hdrop]
    have hs2take : (goWrite (goWrite s i ((s.drop j).take (m.1 - j)))
        (i + (m.1 - j)) subst).take (i + (m.1 - j) + subst.length)
        = s.take i ++ (b.drop j).take (m.1 - j) ++ subst := by
      have := goWrite_take_add (goWrite s i ((s.drop j).take (m.1 - j))) subst
        (i + (m.1 - j)) (by rw [hs1len]; omega)
      rw [this, hs1take]
    obtain ⟨c1, c2, c3, c4, c5, c6⟩ := ih
      (goWrite (goWrite s i ((s.drop j).take (m.1 - j))) (i + (m.1 - j)) subst)
      (i + (m.1 - j) + subst.length) m.2 hs2len hi2 hmL hs2drop hch' hno'
    have hacc : replAcc b subst j (m :: rest)
        = (b.drop j).take (m.1 - j) ++ subst ++ replAcc b subst m.2 rest := by
      rw [replAcc, List.append_assoc]
    have hacclen : ((b.drop j).take (m.1 - j)).length = m.1 - j := by
      rw [List.length_take, List.length_drop]; omega
    have hlast : lastEnd j (m :: rest) = lastEnd m.2 rest := rfl
    refine ⟨c1, ?_, by rw [hlast]; exact c3, by rw [hlast]; exact c4,
      by rw [hlast]; exact c5, ?_⟩
    · rw [c2, hacc, List.length_append, List.length_append, hacclen]; omega
    · rw [c6, hs2take, hacc, List.append_assoc, List.append_assoc, List.append_assoc]

theorem spliceSpec_eq_replAcc (b subst : List Nat) :
    ∀ (ms : List (Nat × Nat)) (j : Nat),
      spliceSpec b subst j ms = replAcc b subst j ms ++ b.drop (lastEnd j ms) := by
  intro ms
  induction ms with
  | nil => intro j; simp [spliceSpec, replAcc, lastEnd]
  | cons m rest ih =>
    intro j
    rw [spliceSpec, replAcc, ih m.2]
    simp [List.append_assoc, lastEnd]

/-- Correctness of the in-place path of Replace: for a well-formed match
sequence in which no substitution is longer than its match span, the
in-place rewrite produces exactly the functional splice. -/
theorem replaceInPlace_eq (b subst : List Nat) (ms : List (Nat × Nat))
    (hch : chainB b.length 0 ms = true)
    (hno : ∀ mm ∈ ms, subst.length ≤ mm.2 - mm.1) :
    replaceInPlace ms subst b = spliceSpec b subst 0 ms := by
  match ms with
  | [] => rw [replaceInPlace, spliceSpec, List.drop_zero]
  | m :: rest =>
    rw [chainB_cons] at hch
    obtain ⟨h1, h2, h3, h4⟩ := hch
    have hnom : subst.length ≤ m.2 - m.1 := hno m (List.mem_cons_self m rest)
    have hno' : ∀ mm ∈ rest, subst.length ≤ mm.2 - mm.1 :=
      fun mm hm => hno mm (List.mem_cons_of_mem m hm)
    have hcopy0 : goCopyLen b m.1 subst = subst.length := by
      rw [goCopyLen]; omega
    have hs1len : (goWrite b m.1 subst).length = b.length := goWrite_length b subst m.1
    have hs1take : (goWrite b m.1 subst).take (m.1 + subst.length)
        = b.take m.1 ++ subst := goWrite_take_add b subst m.1 (by omega)
    have hs1drop : (goWrite b m.1 subst).drop m.2 = b.drop m.2 :=
      goWrite_drop b subst m.1 m.2 (by omega)
    obtain ⟨c1, c2, c3, c4, c5, c6⟩ := replFold_inv b subst rest
      (goWrite b m.1 subst) (m.1 + subst.length) m.2 hs1len (by omega) h3 hs1drop h4 hno'
    have hle := (lastEnd_le rest m.2 h4 h3).2
    rw [replaceInPlace]
    rw [hcopy0]
    rw [spliceSpec, spliceSpec_eq_replAcc, List.drop_zero, Nat.sub_zero]
    set st := rest.foldl (replStep subst) (goWrite b m.1 subst, m.1 + subst.length, m.2)
      with hst
    by_cases hcase : st.2.2 < st.1.length
    · simp only [if_pos hcase]
      have hdropv : st.1.drop st.2.2 = b.drop st.2.2 := by rw [c3]; exact c5
      have hvlen : (st.1.drop st.2.2).length = b.length - st.2.2 := by
        rw [List.length_drop, c1]
      have hcopy : goCopyLen st.1 st.2.1 (st.1.drop st.2.2) = b.length - st.2.2 := by
        rw [goCopyLen, hvlen, c1]
        have : st.2.1 ≤ st.2.2 := by rw [c3]; exact c4
        omega
      have htk := goWrite_take_add st.1 (st.1.drop st.2.2) st.2.1
        (by rw [hvlen, c1, c3]; have := c4; omega)
      rw [hcopy]
      rw [hvlen] at htk
      rw [htk, c6, hs1take, hdropv, c3, List.append_assoc, List.append_assoc]
    · simp only [if_neg hcase]
      have hjL : st.2.2 = b.length := by rw [c3]; rw [c3, c1] at hcase; omega
      have hnil : b.drop (lastEnd m.2 rest) = [] := by
        rw [← c3, hjL, List.drop_length]
      rw [hnil, List.append_nil, c6, hs1take, List.append_assoc]

theorem spliceRun_fold (subst src : List Nat) :
    ∀ (ms : List (Nat × Nat)) (acc : List Nat) (j : Nat),
      (ms.foldl (fun (st : List Nat × Nat) m =>
          (st.1 ++ (src.drop st.2).take (m.1 - st.2) ++ subst, m.2)) (acc, j)).1
        ++ src.drop (ms.foldl (fun (st : List Nat × Nat) m =>
          (st.1 ++ (src.drop st.2).take (m.1 - st.2) ++ subst, m.2)) (acc, j)).2
      = acc ++ spliceSpec src subst j ms := by
  intro ms
  induction ms with
  | nil => intro acc j; rw [List.foldl_nil, spliceSpec]
  | cons m rest ih =>
    intro acc j
    rw [List.foldl_cons, spliceSpec]
    rw [ih (acc ++ (src.drop j).take (m.1 - j) ++ subst) m.2]
    simp [List.append_assoc]

/-- The reallocating path of Replace produces exactly the functional
splice (no well-formedness needed). -/
theorem spliceRun_eq (subst src : List Nat) (ms : List (Nat × Nat)) :
    spliceRun ms subst src = spliceSpec src subst 0 ms := by
  rw [spliceRun]
  have := spliceRun_fold subst src ms [] 0
  rw [List.nil_append] at this
  exact this

theorem spliceSpec_length (b subst : List Nat) :
    ∀ (ms : List (Nat × Nat)) (j : Nat), chainB b.length j ms = true → j ≤ b.length →
      (spliceSpec b subst j ms).length
        = b.length - j - spansTotal ms + ms.length * subst.length := by
  intro ms
  induction ms with
  | nil => intro j _ hj; simp [spliceSpec, spansTotal]
  | cons m rest ih =>
    intro j h hj
    rw [chainB_cons] at h
    obtain ⟨h1, h2, h3, h4⟩ := h
    have hrest := ih m.2 h4 h3
    have hbound := spansTotal_le_lastEnd rest m.2 h4
    have hle := (lastEnd_le rest m.2 h4 h3).2
    rw [spliceSpec, List.length_append, List.length_append, hrest, List.length_take,
      List.length_drop, spansTotal, List.length_cons]
    have hmul : (rest.length + 1) * subst.length
        = rest.length * subst.length + subst.length := by ring
    rw [hmul]
    omega

/-! ### The match-scanning loop -/

theorem scanMs_fold (slen : Nat) :
    ∀ (ms : List (Nat × Nat)) (a : Nat) (bo : Bool),
      ms.foldl (fun st m => (st.1 + (m.2 - m.1), st.2 || decide (m.2 - m.1 < slen))) (a, bo)
        = (a + spansTotal ms, bo || ms.any (fun m => decide (m.2 - m.1 < slen))) := by
  intro ms
  induction ms with
  | nil => intro a bo; simp [spansTotal]
  | cons m rest ih =>
    intro a bo
    rw [List.foldl_cons, ih, spansTotal, List.any_cons]
    refine Prod.ext ?_ ?_
    · simp only []
      omega
    · simp only []
      rw [Bool.or_assoc]

theorem scanMs_fst (slen : Nat) (ms : List (Nat × Nat)) :
    (scanMs slen ms).1 = spansTotal ms := by
  rw [scanMs, scanMs_fold]
  simp

theorem scanMs_snd (slen : Nat) (ms : List (Nat × Nat)) :
    (scanMs slen ms).2 = ms.any (fun m => decide (m.2 - m.1 < slen)) := by
  rw [scanMs, scanMs_fold]
  simp

theorem scanMs_snd_false (slen : Nat) (ms : List (Nat × Nat)) :
    (scanMs slen ms).2 = false ↔ ∀ m ∈ ms, slen ≤ m.2 - m.1 := by
  rw [scanMs_snd]
  simp only [List.any_eq_false, decide_eq_true_eq]
  constructor
  · intro h m hm
    have := h m hm
    omega
  · intro h m hm
    have := h m hm
    omega

theorem scanMs_snd_true (slen : Nat) (ms : List (Nat × Nat)) :
    (scanMs slen ms).2 = true ↔ ∃ m ∈ ms, m.2 - m.1 < slen := by
  rw [scanMs_snd]
  simp only [List.any_eq_true, decide_eq_true_eq]

theorem spansTotal_zero_of_all_empty (ms : List (Nat × Nat))
    (h : ∀ m ∈ ms, m.2 = m.1) : spansTotal ms = 0 := by
  induction ms with
  | nil => rfl
  | cons m rest ih =>
    rw [spansTotal, ih (fun mm hm => h mm (List.mem_cons_of_mem m hm))]
    have := h m (List.mem_cons_self m rest)
    omega

/-! ### Rewriter-level lemmas -/

theorem appendGrow_data (b src : Buf) (out : List Nat) :
    (appendGrow b src out).1.data = out := by
  rw [appendGrow]
  split
  · rfl
  · rfl

theorem den_data_eq (r : RW) :
    ∀ (d d' s s' : Buf), d.data = [] → d'.data = [] → s.data = s'.data →
      ((r.den d s).1).data = ((r.den d' s').1).data := by
  induction r with
  | del mf =>
    intro d d' s s' hd hd' hss
    simp only [RW.den, deleteRW, hss]
    by_cases h : (mf s'.data).length = 0
    · simp [h, hss]
    · simp [h, hss]
  | repl mf subst =>
    intro d d' s s' hd hd' hss
    by_cases hsub : subst.length = 0
    · simp only [RW.den, if_pos hsub, deleteRW, hss]
      by_cases h : (mf s'.data).length = 0
      · simp [h, hss]
      · simp [h, hss]
    · simp only [RW.den, if_neg hsub, replaceRW, hss]
      by_cases h1 : (scanMs subst.length (mf s'.data)).1 = 0
      · simp [h1, hss]
      · by_cases h2 : (scanMs subst.length (mf s'.data)).2
        · by_cases hc : s'.data.length - (scanMs subst.length (mf s'.data)).1
              + (mf s'.data).length * subst.length > d.cap
          · by_cases hc' : s'.data.length - (scanMs subst.length (mf s'.data)).1
                + (mf s'.data).length * subst.length > d'.cap
            · simp [h1, h2, hc, hc', hd, hd']
            · simp [h1, h2, hc, hc', hd, hd']
          · by_cases hc' : s'.data.length - (scanMs subst.length (mf s'.data)).1
                + (mf s'.data).length * subst.length > d'.cap
            · simp [h1, h2, hc, hc', hd, hd']
            · simp [h1, h2, hc, hc', hd, hd']
        · simp [h1, h2, hss]
  | expa mf exp =>
    intro d d' s s' hd hd' hss
    simp only [RW.den, expandRW, hss]
    by_cases h : (mf s'.data).length = 0
    · simp [h, hss]
    · by_cases hc : s'.data.length > d.cap
      · by_cases hc' : s'.data.length > d'.cap
        · simp [h, hc, hc', hd, hd', appendGrow_data]
        · simp [h, hc, hc', hd, hd', appendGrow_data]
      · by_cases hc' : s'.data.length > d'.cap
        · simp [h, hc, hc', hd, hd', appendGrow_data]
        · simp [h, hc, hc', hd, hd', appendGrow_data]
  | seq a b iha ihb =>
    intro d d' s s' hd hd' hss
    simp only [RW.den, seqRun, List.foldl_cons, List.foldl_nil]
    exact ihb _ _ _ _ rfl rfl (iha _ _ _ _ rfl rfl hss)

theorem den_noMatch (r : RW) :
    ∀ (dest src : Buf), r.noMatch src.data = true →
      (r.den dest src).1 = src ∧ (r.den dest src).2.2 = 0 := by
  induction r with
  | del mf =>
    intro dest src h
    rw [RW.noMatch, decide_eq_true_eq] at h
    simp [RW.den, deleteRW, h]
  | repl mf subst =>
    intro dest src h
    rw [RW.noMatch, decide_eq_true_eq] at h
    have hms : mf src.data = [] := List.length_eq_zero.mp h
    by_cases hsub : subst.length = 0
    · simp [RW.den, hsub, deleteRW, h]
    · simp [RW.den, hsub, replaceRW, hms, scanMs]
  | expa mf exp =>
    intro dest src h
    rw [RW.noMatch, decide_eq_true_eq] at h
    simp [RW.den, expandRW, h]
  | seq a b iha ihb =>
    intro dest src h
    rw [RW.noMatch, Bool.and_eq_true] at h
    obtain ⟨hA, hB⟩ := h
    simp only [RW.den, seqRun, List.foldl_cons, List.foldl_nil]
    obtain ⟨ha1, ha2⟩ := iha { dest with data := [] } src hA
    rw [ha1, ha2]
    obtain ⟨hb1, hb2⟩ :=
      ihb { (a.den { dest with data := [] } src).2.1 with data := [] } src hB
    rw [hb1, hb2]
    exact ⟨rfl, rfl⟩

theorem den_alloc_le (r : RW) :
    ∀ (dest src : Buf), r.noExpand = true → (r.den dest src).2.2 ≤ r.stages := by
  induction r with
  | del mf =>
    intro dest src _
    simp only [RW.den, deleteRW, RW.stages]
    split
    · simp
    · simp
  | repl mf subst =>
    intro dest src _
    simp only [RW.den, RW.stages]
    split
    · simp only [deleteRW]
      split
      · simp
      · simp
    · simp only [replaceRW]
      split
      · simp
      · split
        · split
          · simp
          · simp
        · simp
  | expa mf exp =>
    intro dest src hx
    simp [RW.noExpand] at hx
  | seq a b iha ihb =>
    intro dest src hx
    rw [RW.noExpand, Bool.and_eq_true] at hx
    simp only [RW.den, seqRun, List.foldl_cons, List.foldl_nil, RW.stages]
    have h1 := iha { dest with data := [] } src hx.1
    have h2 := ihb
      { (a.den { dest with data := [] } src).2.1 with data := [] }
      (a.den { dest with data := [] } src).1 hx.2
    rw [Nat.zero_add]
    exact Nat.add_le_add h1 h2

/-- A single Expand stage can allocate twice: the speculative destination
is sized to len(src) + len(src)/5 only, so when the expanded output
outgrows it (here a 7-byte input expanding to 12 bytes, the shape of the
template-expansion example in the package documentation) the appends
reallocate again through growth. -/
theorem expand_two_allocs :
    ((expandRW (fun _ => [(2, 5)]) (fun _ _ => [9, 9, 9, 9, 9, 9, 9, 9]))
        ⟨0, [], 0⟩ ⟨1, [0, 1, 2, 3, 4, 5, 6], 7⟩).2.2 = 2 := by
  decide

/-! ### The literal matcher and its count bound -/

theorem startsWith_length : ∀ (s p : List Nat), startsWith s p = true → p.length ≤ s.length := by
  intro s
  induction s with
  | nil =>
    intro p h
    cases p with
    | nil => simp
    | cons x xs => rw [startsWith] at h; cases h
  | cons a t ih =>
    intro p h
    cases p with
    | nil => simp
    | cons x xs =>
      rw [startsWith, Bool.and_eq_true] at h
      have := ih xs h.2
      simp only [List.length_cons]
      omega

theorem bytesIndex_bound : ∀ (s : List Nat) (p0 : Nat) (pr : List Nat) (i : Nat),
    bytesIndex s (p0 :: pr) = some i → i + (pr.length + 1) ≤ s.length := by
  intro s
  induction s with
  | nil =>
    intro p0 pr i h
    rw [bytesIndex] at h
    rw [show startsWith [] (p0 :: pr) = false from rfl] at h
    simp at h
  | cons a t ih =>
    intro p0 pr i h
    rw [bytesIndex] at h
    by_cases hs : startsWith (a :: t) (p0 :: pr) = true
    · rw [if_pos hs] at h
      have hi : i = 0 := by
        have := h
        simp at this
        omega
      have := startsWith_length _ _ hs
      simp only [List.length_cons] at this ⊢
      omega
    · rw [if_neg hs] at h
      cases hb : bytesIndex t (p0 :: pr) with
      | none => rw [hb] at h; simp at h
      | some k =>
        rw [hb] at h
        simp at h
        have := ih p0 pr k hb
        simp only [List.length_cons]
        omega

theorem litNAux_take (p0 : Nat) (pr s : List Nat) :
    ∀ (n fuel b : Nat), s.length < fuel + b →
      litNAux p0 pr s n b = (litAux p0 pr s fuel b).take n := by
  intro n
  induction n with
  | zero => intro fuel b _; rw [litNAux, List.take_zero]
  | succ n ih =>
    intro fuel b h
    cases fuel with
    | zero =>
      have hdrop : s.drop b = [] := List.drop_eq_nil_of_le (by omega)
      rw [litNAux, litAux, hdrop]
      rfl
    | succ f =>
      rw [litNAux, litAux]
      cases hb : bytesIndex (s.drop b) (p0 :: pr) with
      | none => rfl
      | some i =>
        have hbnd := bytesIndex_bound (s.drop b) p0 pr i hb
        rw [List.length_drop] at hbnd
        show (b + i, b + i + (pr.length + 1)) :: litNAux p0 pr s n (b + i + (pr.length + 1))
          = List.take (n + 1)
            ((b + i, b + i + (pr.length + 1)) :: litAux p0 pr s f (b + i + (pr.length + 1)))
        rw [List.take_succ_cons]
        rw [ih f (b + i + (pr.length + 1)) (by omega)]

theorem litNM_take (patt : List Nat) (n : Int) (s : List Nat) (hn : 0 ≤ n) :
    litNM patt n s = (litM patt s).take n.toNat := by
  match patt with
  | [] =>
    rw [litNM.eq_def, if_neg (by omega)]
    simp [litM]
  | p0 :: pr =>
    rw [litNM.eq_def, if_neg (by omega)]
    show litNAux p0 pr s n.toNat 0 = (litAux p0 pr s (s.length + 1) 0).take n.toNat
    exact litNAux_take p0 pr s n.toNat (s.length + 1) 0 (by omega)

theorem litNM_neg (patt : List Nat) (n : Int) (s : List Nat) (hn : n < 0) :
    litNM patt n s = litM patt s := by
  rw [litNM.eq_def, if_pos hn]

/-! ### Claim theorems -/

/-- C1: for every buffer and every Matcher producing a well-formed match
sequence, Delete returns the buffer with every matched span removed and the
remaining bytes concatenated in original order, and the result length is
the buffer length minus the total span length. -/
theorem c1_delete_correct (mf : Matcher) (dest b : Buf)
    (hch : chainB b.data.length 0 (mf b.data) = true) :
    ((deleteRW mf dest b).1).data = removeSpec b.data 0 (mf b.data) ∧
    ((deleteRW mf dest b).1).data.length
      = b.data.length - spansTotal (mf b.data) := by
  by_cases h : (mf b.data).length = 0
  · have hms : mf b.data = [] := List.length_eq_zero.mp h
    simp [deleteRW, hms, removeSpec, spansTotal]
  · constructor
    · simp only [deleteRW, if_neg h]
      exact deleteRun_eq b.data (mf b.data) hch
    · simp only [deleteRW, if_neg h]
      show (deleteRun (mf b.data) b.data).length = _
      rw [deleteRun_eq b.data (mf b.data) hch,
        removeSpec_length b.data (mf b.data) 0 hch (Nat.zero_le _)]
      omega

theorem c1_delete_correct_witness :
    ((deleteRW (fun _ => [(1, 2)]) ⟨0, [], 0⟩ ⟨1, [9, 8, 7], 3⟩).1).data
      = removeSpec [9, 8, 7] 0 ((fun _ => [(1, 2)]) [9, 8, 7]) ∧
    ((deleteRW (fun _ => [(1, 2)]) ⟨0, [], 0⟩ ⟨1, [9, 8, 7], 3⟩).1).data.length
      = ([9, 8, 7] : List Nat).length - spansTotal ((fun _ => [(1, 2)]) [9, 8, 7]) :=
  c1_delete_correct (fun _ => [(1, 2)]) ⟨0, [], 0⟩ ⟨1, [9, 8, 7], 3⟩ (by decide)

/-- C2 counterexample: a Matcher may return a non-empty match sequence of
zero-width matches; Replace then returns the source unchanged, so the
claimed length formula fails (the claim predicts length 3, the code
returns length 2). -/
theorem c2_counterexample :
    ((RW.repl (fun _ => [(1, 1)]) [5]).do ⟨1, [0, 1], 2⟩).data = [0, 1] ∧
    ((RW.repl (fun _ => [(1, 1)]) [5]).do ⟨1, [0, 1], 2⟩).data.length
      ≠ ([0, 1] : List Nat).length - spansTotal [(1, 1)]
        + ([(1, 1)] : List (Nat × Nat)).length * ([5] : List Nat).length := by
  constructor
  · decide
  · decide

/-- C2 amended: with a non-empty substitution, if the total matched length
is zero (in particular if the match sequence is empty) Replace returns the
source buffer itself unchanged; if the total matched length is positive the
result length is len(b) - total spans + match count times len(s). -/
theorem c2_replace_length (mf : Matcher) (subst : List Nat) (b : Buf)
    (hs : 0 < subst.length)
    (hch : chainB b.data.length 0 (mf b.data) = true) :
    (spansTotal (mf b.data) = 0 → (RW.repl mf subst).do b = b) ∧
    (0 < spansTotal (mf b.data) →
      ((RW.repl mf subst).do b).data.length
        = b.data.length - spansTotal (mf b.data)
          + (mf b.data).length * subst.length) := by
  simp only [RW.do, RW.den, if_neg (by omega : ¬subst.length = 0), replaceRW]
  constructor
  · intro h0
    rw [if_pos (by rw [scanMs_fst]; exact h0)]
  · intro hpos
    rw [if_neg (by rw [scanMs_fst]; omega)]
    by_cases h2 : (scanMs subst.length (mf b.data)).2 = true
    · rw [if_pos h2]
      by_cases h3 : b.data.length - (scanMs subst.length (mf b.data)).1
          + (mf b.data).length * subst.length > (⟨0, [], 0⟩ : Buf).cap
      · rw [if_pos h3]
        show (spliceRun (mf b.data) subst b.data).length = _
        rw [spliceRun_eq, spliceSpec_length b.data subst (mf b.data) 0 hch (Nat.zero_le _),
          Nat.sub_zero]
      · rw [if_neg h3]
        show (([] : List Nat) ++ spliceRun (mf b.data) subst b.data).length = _
        rw [List.nil_append, spliceRun_eq,
          spliceSpec_length b.data subst (mf b.data) 0 hch (Nat.zero_le _), Nat.sub_zero]
    · rw [if_neg h2]
      rw [Bool.not_eq_true] at h2
      have hno := (scanMs_snd_false subst.length (mf b.data)).mp h2
      show (replaceInPlace (mf b.data) subst b.data).length = _
      rw [replaceInPlace_eq b.data subst (mf b.data) hch hno,
        spliceSpec_length b.data subst (mf b.data) 0 hch (Nat.zero_le _), Nat.sub_zero]

theorem c2_replace_length_witness :
    ((RW.repl (fun _ => [(0, 1)]) [5]).do ⟨1, [0, 1], 2⟩).data.length
      = ([0, 1] : List Nat).length - spansTotal ((fun _ => [(0, 1)]) [0, 1])
        + ((fun _ => [(0, 1)]) [0, 1]).length * ([5] : List Nat).length :=
  (c2_replace_length (fun _ => [(0, 1)]) [5] ⟨1, [0, 1], 2⟩ (by decide) (by decide)).2
    (by decide)

/-- C3: frame behaviour of Replace with a non-empty substitution and
positive total span.  If the substitution never exceeds a match span the
rewrite happens in place in the current buffer (same storage identity and
capacity) and the spare is returned untouched.  If it exceeds some span
the result goes to a separate destination: the spare when its capacity
reaches the final size (no allocation), otherwise a fresh buffer with
capacity final size + final size / 5 (one allocation); the current buffer
is returned as the new spare. -/
theorem c3_replace_frame (mf : Matcher) (subst : List Nat) (dest src : Buf)
    (hs : 0 < subst.length)
    (hsz : 0 < spansTotal (mf src.data)) :
    ((∀ m ∈ mf src.data, subst.length ≤ m.2 - m.1) →
      (RW.repl mf subst).den dest src
        = (⟨src.id, replaceInPlace (mf src.data) subst src.data, src.cap⟩, dest, 0)) ∧
    ((∃ m ∈ mf src.data, m.2 - m.1 < subst.length) →
      ((src.data.length - spansTotal (mf src.data)
            + (mf src.data).length * subst.length ≤ dest.cap →
        (RW.repl mf subst).den dest src
          = (⟨dest.id, dest.data ++ spliceRun (mf src.data) subst src.data, dest.cap⟩,
              src, 0)) ∧
       (dest.cap < src.data.length - spansTotal (mf src.data)
            + (mf src.data).length * subst.length →
        (RW.repl mf subst).den dest src
          = (⟨freshId dest src, spliceRun (mf src.data) subst src.data,
                src.data.length - spansTotal (mf src.data)
                  + (mf src.data).length * subst.length
                  + (src.data.length - spansTotal (mf src.data)
                      + (mf src.data).length * subst.length) / 5⟩,
              src, 1)
          ∧ freshId dest src ≠ dest.id ∧ freshId dest src ≠ src.id))) := by
  simp only [RW.den, if_neg (by omega : ¬subst.length = 0), replaceRW,
    if_neg (by rw [scanMs_fst]; omega : ¬(scanMs subst.length (mf src.data)).1 = 0)]
  constructor
  · intro hno
    rw [if_neg (by simp [(scanMs_snd_false subst.length (mf src.data)).mpr hno])]
  · intro hov
    rw [if_pos ((scanMs_snd_true subst.length (mf src.data)).mpr hov)]
    constructor
    · intro hcap
      rw [if_neg (by rw [scanMs_fst]; omega)]
    · intro hcap
      rw [if_pos (by rw [scanMs_fst]; omega), scanMs_fst]
      refine ⟨rfl, ?_, ?_⟩
      · rw [freshId]; omega
      · rw [freshId]; omega

theorem c3_replace_frame_witness :
    (RW.repl (fun _ => [(0, 1)]) [7, 7]).den ⟨2, [], 0⟩ ⟨1, [0, 1], 2⟩
      = (⟨freshId ⟨2, [], 0⟩ ⟨1, [0, 1], 2⟩,
            spliceRun ((fun _ => [(0, 1)]) [0, 1]) [7, 7] [0, 1],
            ([0, 1] : List Nat).length - spansTotal ((fun _ => [(0, 1)]) [0, 1])
              + ((fun _ => [(0, 1)]) [0, 1]).length * ([7, 7] : List Nat).length
              + (([0, 1] : List Nat).length - spansTotal ((fun _ => [(0, 1)]) [0, 1])
                  + ((fun _ => [(0, 1)]) [0, 1]).length * ([7, 7] : List Nat).length) / 5⟩,
          ⟨1, [0, 1], 2⟩, 1)
      ∧ freshId ⟨2, [], 0⟩ ⟨1, [0, 1], 2⟩ ≠ 2 ∧ freshId ⟨2, [], 0⟩ ⟨1, [0, 1], 2⟩ ≠ 1 :=
  ((c3_replace_frame (fun _ => [(0, 1)]) [7, 7] ⟨2, [], 0⟩ ⟨1, [0, 1], 2⟩
      (by decide) (by decide)).2
    (by decide)).2 (by decide)

/-- C4: applying Seq(A, B) to a buffer yields the same byte sequence as
applying B to the result of applying A. -/
theorem c4_seq_compose (a b : RW) (x : Buf) :
    ((RW.seq a b).do x).data = (b.do (a.do x)).data := by
  rw [RW.do, RW.do, RW.do]
  simp only [RW.den, seqRun, List.foldl_cons, List.foldl_nil]
  exact den_data_eq b _ _ _ _ rfl rfl (den_data_eq a _ _ _ _ rfl rfl rfl)

/-- C5: when every match span has exactly the substitution length, the
in-place code path and the reallocating code path of Replace produce
byte-identical output. -/
theorem c5_paths_agree (mf : Matcher) (subst b : List Nat)
    (hch : chainB b.length 0 (mf b) = true)
    (heq : ∀ m ∈ mf b, m.2 - m.1 = subst.length) :
    replaceInPlace (mf b) subst b = spliceRun (mf b) subst b := by
  rw [replaceInPlace_eq b subst (mf b) hch (fun mm hm => le_of_eq (heq mm hm).symm),
    spliceRun_eq]

theorem c5_paths_agree_witness :
    replaceInPlace ((fun _ => [(1, 2)]) [0, 1, 2]) [9] [0, 1, 2]
      = spliceRun ((fun _ => [(1, 2)]) [0, 1, 2]) [9] [0, 1, 2] :=
  c5_paths_agree (fun _ => [(1, 2)]) [9] [0, 1, 2] (by decide) (by decide)

/-- C6: safety of Replace's in-place path.  For an ordered, non-overlapping
match sequence in which the substitution never exceeds a match span, at
every step of the loop the write cursor stays at or before the read cursor:
the initial substitution write ends within the first match span, at every
loop entry the write position is at most the read position, the gap copy
for the next match ends at or before that match's start, and the following
substitution write ends within that match's span. -/
theorem c6_inplace_safety (subst b : List Nat) (m0 m : Nat × Nat)
    (pre post : List (Nat × Nat)) (st : List Nat × Nat × Nat)
    (hch : chainB b.length 0 (m0 :: (pre ++ m :: post)) = true)
    (hno : ∀ mm ∈ m0 :: (pre ++ m :: post), subst.length ≤ mm.2 - mm.1)
    (hst : st = pre.foldl (replStep subst)
      (goWrite b m0.1 subst, m0.1 + goCopyLen b m0.1 subst, m0.2)) :
    m0.1 + goCopyLen b m0.1 subst ≤ m0.2 ∧
    st.2.1 ≤ st.2.2 ∧
    st.2.1 + (m.1 - st.2.2) ≤ m.1 ∧
    st.2.1 + (m.1 - st.2.2) + subst.length ≤ m.2 := by
  rw [chainB_cons] at hch
  obtain ⟨h1, h2, h3, h4⟩ := hch
  have hnom0 : subst.length ≤ m0.2 - m0.1 :=
    hno m0 (List.mem_cons_self m0 (pre ++ m :: post))
  obtain ⟨hcpre, hcm⟩ := chainB_append pre (m :: post) m0.2 h4
  rw [chainB_cons] at hcm
  obtain ⟨hm1, hm2, hm3, _⟩ := hcm
  have hnom : subst.length ≤ m.2 - m.1 :=
    hno m (List.mem_cons_of_mem m0 (List.mem_append_right pre
      (List.mem_cons_self m post)))
  have hnopre : ∀ mm ∈ pre, subst.length ≤ mm.2 - mm.1 :=
    fun mm hm => hno mm (List.mem_cons_of_mem m0 (List.mem_append_left _ hm))
  have hcopy0 : goCopyLen b m0.1 subst = subst.length := by
    rw [goCopyLen]; omega
  have hs1len : (goWrite b m0.1 subst).length = b.length := goWrite_length b subst m0.1
  have hs1drop : (goWrite b m0.1 subst).drop m0.2 = b.drop m0.2 :=
    goWrite_drop b subst m0.1 m0.2 (by omega)
  obtain ⟨c1, c2, c3, c4, c5, c6⟩ := replFold_inv b subst pre
    (goWrite b m0.1 subst) (m0.1 + subst.length) m0.2 hs1len (by omega) h3 hs1drop
    hcpre hnopre
  rw [hcopy0] at hst
  rw [hst, c3]
  have hlast := (lastEnd_le pre m0.2 hcpre h3).1
  refine ⟨by omega, c4, by omega, by omega⟩

theorem c6_inplace_safety_witness :
    (0, 1).1 + goCopyLen [0, 1, 2, 3] (0, 1).1 [9] ≤ (0, 1).2 ∧
    (([9, 1, 2, 3], 1, 1) : List Nat × Nat × Nat).2.1 ≤ (([9, 1, 2, 3], 1, 1) : List Nat × Nat × Nat).2.2 ∧
    (([9, 1, 2, 3], 1, 1) : List Nat × Nat × Nat).2.1 + ((2, 3).1 - (([9, 1, 2, 3], 1, 1) : List Nat × Nat × Nat).2.2) ≤ (2, 3).1 ∧
    (([9, 1, 2, 3], 1, 1) : List Nat × Nat × Nat).2.1 + ((2, 3).1 - (([9, 1, 2, 3], 1, 1) : List Nat × Nat × Nat).2.2) + ([9] : List Nat).length ≤ (2, 3).2 :=
  c6_inplace_safety [9] [0, 1, 2, 3] (0, 1) (2, 3) [] [] ([9, 1, 2, 3], 1, 1)
    (by decide) (by decide) (by decide)

/-- C7: a count-limited base Matcher (LitN, or the count-limited interface
of the external pattern engine) yields, for n at least 0, exactly the first
min(n, total) matches of the unbounded Matcher in the same order, and for
negative n behaves exactly as the unbounded Matcher. -/
theorem c7_count_limit (bm : BaseM) (n : Int) (s : List Nat) :
    (0 ≤ n → bm.limited n s = (bm.unbounded s).take n.toNat ∧
      (bm.limited n s).length = min n.toNat (bm.unbounded s).length) ∧
    (n < 0 → bm.limited n s = bm.unbounded s) := by
  match bm with
  | .lit p =>
    constructor
    · intro hn
      have h := litNM_take p n s hn
      exact ⟨h, by rw [BaseM.limited, h, List.length_take, BaseM.unbounded]⟩
    · intro hn
      exact litNM_neg p n s hn
  | .patt a =>
    constructor
    · intro hn
      have h : reFindAllIndex (a s) n = (reFindAllIndex (a s) (-1)).take n.toNat := by
        rw [reFindAllIndex, reFindAllIndex, if_neg (by omega),
          if_pos (by omega : (-1 : Int) < 0)]
      constructor
      · exact h
      · simp only [BaseM.limited, BaseM.unbounded]
        rw [h, List.length_take]
    · intro hn
      simp only [BaseM.limited, BaseM.unbounded]
      rw [reFindAllIndex, reFindAllIndex, if_pos hn, if_pos (by omega : (-1 : Int) < 0)]

theorem c7_count_limit_witness :
    (BaseM.lit [1]).limited 2 [1, 2, 1, 1] = ((BaseM.lit [1]).unbounded [1, 2, 1, 1]).take 2 ∧
    (BaseM.lit [1]).limited (-1) [1, 2, 1, 1] = (BaseM.lit [1]).unbounded [1, 2, 1, 1] :=
  ⟨((c7_count_limit (BaseM.lit [1]) 2 [1, 2, 1, 1]).1 (by decide)).1,
   (c7_count_limit (BaseM.lit [1]) (-1) [1, 2, 1, 1]).2 (by decide)⟩

/-- C8: applying any built Rewriter is total in this model (every
denotation is a total function), and when no stage's Matcher finds a match
the input buffer is returned unchanged, with no failure signalled and no
allocation. -/
theorem c8_no_match_identity (r : RW) (x : Buf) (h : r.noMatch x.data = true) :
    r.do x = x := by
  rw [RW.do]
  exact (den_noMatch r ⟨0, [], 0⟩ x h).1

theorem c8_no_match_identity_witness :
    (RW.seq (RW.del (litM [3])) (RW.repl (litM [4]) [7])).do ⟨1, [], 0⟩
      = (⟨1, [], 0⟩ : Buf) :=
  c8_no_match_identity (RW.seq (RW.del (litM [3])) (RW.repl (litM [4]) [7]))
    ⟨1, [], 0⟩ (by decide)

/-- C9 counterexample: a two-stage pipeline of growing Replace stages
allocates twice beyond the original input buffer: the first stage allocates
because the initial spare is nil, the second because the original input
buffer handed down as spare is too small for the grown result. -/
theorem c9_counterexample :
    ((RW.seq (RW.repl (litM [0]) [7, 7, 7]) (RW.repl (litM [7]) [8, 8, 8, 8, 8])).den
        ⟨0, [], 0⟩ ⟨1, [0, 1], 2⟩).2.2 = 2 ∧
    ¬(((RW.seq (RW.repl (litM [0]) [7, 7, 7]) (RW.repl (litM [7]) [8, 8, 8, 8, 8])).den
        ⟨0, [], 0⟩ ⟨1, [0, 1], 2⟩).2.2 ≤ 1) := by
  constructor
  · decide
  · decide

/-- C9 amended: for a pipeline whose stages are all Delete or Replace,
each stage allocates at most one fresh buffer (Delete none, Replace at
most its single explicit make), so across one application the number of
allocations beyond the original input buffer is bounded by the number of
primitive stages — not by one; the execution threads exactly one
(current, spare) buffer pair between stages.  Expand stages are excluded:
their append growth can allocate again within one stage (expand_two_allocs). -/
theorem c9_alloc_per_stage (r : RW) (dest src : Buf) (hx : r.noExpand = true) :
    (r.den dest src).2.2 ≤ r.stages :=
  den_alloc_le r dest src hx

theorem c9_alloc_per_stage_witness :
    ((RW.seq (RW.repl (litM [0]) [7, 7, 7]) (RW.repl (litM [7]) [8, 8, 8, 8, 8])).den
        ⟨0, [], 0⟩ ⟨1, [0, 1], 2⟩).2.2
      ≤ (RW.seq (RW.repl (litM [0]) [7, 7, 7]) (RW.repl (litM [7]) [8, 8, 8, 8, 8])).stages :=
  c9_alloc_per_stage
    (RW.seq (RW.repl (litM [0]) [7, 7, 7]) (RW.repl (litM [7]) [8, 8, 8, 8, 8]))
    ⟨0, [], 0⟩ ⟨1, [0, 1], 2⟩ (by decide)

/-- C10: with a non-empty substitution, a non-empty match sequence in which
every match is zero-width makes Replace return the source buffer unchanged
(and the spare untouched): the operation short-circuits whenever the total
matched length is zero. -/
theorem c10_zero_width_identity (mf : Matcher) (subst : List Nat) (dest src : Buf)
    (hs : 0 < subst.length)
    (_hne : mf src.data ≠ [])
    (hzw : ∀ m ∈ mf src.data, m.2 = m.1) :
    (RW.repl mf subst).den dest src = (src, dest, 0) := by
  have hz : spansTotal (mf src.data) = 0 := spansTotal_zero_of_all_empty _ hzw
  simp only [RW.den, if_neg (by omega : ¬subst.length = 0), replaceRW]
  rw [if_pos (by rw [scanMs_fst]; exact hz)]

theorem c10_zero_width_identity_witness :
    (RW.repl (fun _ => [(1, 1)]) [5]).den ⟨0, [], 0⟩ ⟨1, [0, 1], 2⟩
      = ((⟨1, [0, 1], 2⟩ : Buf), (⟨0, [], 0⟩ : Buf), 0) :=
  c10_zero_width_identity (fun _ => [(1, 1)]) [5] ⟨0, [], 0⟩ ⟨1, [0, 1], 2⟩
    (by decide) (by decide) (by decide)
